import Mathlib

/-!
Shallow embedding of the BGMW multi-scalar-multiplication subsystem of the
repository (kzg/src/msm/bgmw.rs, with kzg/src/io_utils.rs for the batch
reader), compiled with the `parallel` feature, which is the configuration in
which `BgmwWindow` is the two-variant enum the specification describes.

Modelling conventions:
* The curve group is an arbitrary additive commutative group `G`; the
  field/group primitives (`add`, `double`, `negate`, affine/projective
  conversion) are external to the repository, so affine and projective
  representations are both modelled as `G` and the conversions are the
  identity.  `P1XYZZ` bucket accumulators are likewise modelled as `G`.
* Rust panics (out-of-bounds indexing, slice range violations,
  `panic!`) are modelled by returning `none` from an `Option`-valued
  function.  A function that cannot panic on the modelled path is total.
* Allocation (`try_reserve_exact`) is modelled as always succeeding.
* `Scalar256` is modelled as `Nat` (the 256-bit little-endian limb array
  read through `get_wval_limb`), byte streams as `List Nat` of byte values.
-/

/-- NBITS constant of bgmw.rs (line 45): bit length of the scalar field. -/
def NBITS : Nat := 255

/-- Modelled from the spec: `is_zero` of pippenger_utils (not under src/), the
branchless flag used by `get_table_dimensions` and `p1_tile_bgmw`; it returns
1 when its argument is zero and 0 otherwise. -/
def is_zero (x : Nat) : Nat := if x = 0 then 1 else 0

/-- Modelled from the spec: `get_wval_limb` of pippenger_utils (not under
src/); §4.5 "extract the current window's bits from the scalar": the `bits`
bits of the scalar starting at bit position `off`. -/
def get_wval_limb (s off bits : Nat) : Nat := s / 2 ^ off % 2 ^ bits

/-- Modelled from the spec: `booth_encode` of pippenger_utils (not under
src/); §4.3 "maps an unsigned window slice into the range
[-2^(digit_bits-1), 2^(digit_bits-1)], producing a bucket index plus sign
... Carries a carry-out flag that the caller folds into the next-higher
window".  The input is the window slice together with the carry-in bit below
it (its lowest bit); the signed digit is the Booth recoding
ceil(wval/2) - 2^sz * (high carry-out bit), represented here directly as an
integer (sign together with bucket index). -/
def booth_encode (wval sz : Nat) : Int :=
  ((wval + 1) / 2 : Int) - 2 ^ sz * (wval / 2 ^ sz : Nat)

/-- Modelled from the spec: `booth_decode` of pippenger_utils (not under
src/); §4.3 "adds `point` to `buckets[index]` if the sign is positive,
subtracts if negative; a zero digit is a no-op".  Buckets are modelled as a
total function from bucket index to accumulator; digit `d ≠ 0` touches
bucket `|d| - 1`. -/
def booth_decode {G : Type} [AddCommGroup G] (b : Nat → G) (d : Int) (p : G) :
    Nat → G :=
  if 0 < d then fun i => if i = d.toNat - 1 then b i + p else b i
  else if d < 0 then fun i => if i = (-d).toNat - 1 then b i - p else b i
  else b

/-- Scalar multiplication by repeated doubling, the `G1Mul::mul` primitive
consumed (not implemented) by this subsystem, and also the "naive Σ
scalar_i·point_i computed via repeated doubling" reference of §8. -/
def g1_mul {G : Type} [AddCommGroup G] (p : G) : Nat → G
  | 0 => 0
  | n + 1 =>
    let h := g1_mul p ((n + 1) / 2)
    if (n + 1) % 2 = 0 then h + h else h + h + p
decreasing_by exact Nat.div_lt_self (Nat.succ_pos n) (by decide)

/-- The naive MSM reference of §8: Σ scalar_i · point_i over the zipped
point/scalar lists, each term by repeated doubling. -/
def naive_msm {G : Type} [AddCommGroup G] (points : List G)
    (scalars : List Nat) : G :=
  (points.zip scalars).foldl (fun acc pr => acc + g1_mul pr.1 pr.2) 0

/-- BgmwWindow (bgmw.rs lines 47-52, `parallel` feature): either a single
scalar window width (`Sync`) or a 2-D tiling shape `(nx, ny, width)`
(`Parallel`). -/
inductive BgmwWindow : Type
  | Sync (w : Nat)
  | Parallel (nx ny w : Nat)
deriving DecidableEq, Repr

/-- PartialEq for BgmwWindow (bgmw.rs lines 57-68, `parallel` feature): two
Sync windows compare by width; every comparison involving a Parallel window
falls into the catch-all arm and returns false. -/
def windowEqB : BgmwWindow → BgmwWindow → Bool
  | BgmwWindow.Sync a, BgmwWindow.Sync b => a == b
  | _, _ => false

/-- get_table_dimensions (bgmw.rs lines 71-92): `(window_width, h)`; for a
Sync window `h = ceil(NBITS/w) + is_zero(NBITS % w)`, for a Parallel window
`(nx, ny, w)` it returns `(w, ny)`.  (Rust division by a zero width would
panic; callers only reach this with the selector's positive widths, and the
theorems below carry a positive-width hypothesis.) -/
def get_table_dimensions : BgmwWindow → Nat × Nat
  | BgmwWindow.Sync w => (w, (NBITS + w - 1) / w + is_zero (NBITS % w))
  | BgmwWindow.Parallel _ ny w => (w, ny)

/-- get_sequential_window_size (bgmw.rs lines 94-110): the Sync width, or a
panic ("Cannot use parallel BGMW table in sequential version") on a Parallel
window, modelled as `none`. -/
def get_sequential_window_size : BgmwWindow → Option Nat
  | BgmwWindow.Sync w => some w
  | BgmwWindow.Parallel _ _ _ => none

/-- BgmwTable::window (bgmw.rs lines 315-341, `parallel` feature).  The
external helpers `pippenger_window_size` and `breakdown` (pippenger_utils,
not under src/) and the pool size `ncpus` are passed as parameters `pws`,
`bkd`, `ncpus`: with more than 32 points and more than 2 workers the result
is a Parallel tiling, otherwise the Sync pippenger width. -/
def windowSelect (pws : Nat → Nat) (bkd : Nat → Nat → Nat × Nat × Nat)
    (ncpus npoints : Nat) : BgmwWindow :=
  if 32 < npoints ∧ 2 < ncpus then
    let t := bkd (pws npoints) ncpus
    BgmwWindow.Parallel t.1 t.2.1 t.2.2
  else BgmwWindow.Sync (pws npoints)

/-- BgmwTable (bgmw.rs lines 12-28): window parameter, flattened row-major
point matrix, point count and row count.  Affine points are modelled as
group elements. -/
structure BgmwTable (G : Type) where
  window : BgmwWindow
  points : List G
  numpoints : Nat
  h : Nat
deriving DecidableEq, Repr

/-- PartialEq for BgmwTable (bgmw.rs lines 30-43): window equality (the
Parallel-rejecting `windowEqB`) together with pointwise equality of the
remaining fields. -/
def tableEq {G : Type} [DecidableEq G] (a b : BgmwTable G) : Bool :=
  windowEqB a.window b.window && decide (a.points = b.points) &&
    a.numpoints == b.numpoints && a.h == b.h

/-- The table matrix of BgmwTable::new (bgmw.rs lines 133-140): rows
`j = 0, ..., h-1` in row-major order; column `i` of row `j` holds the j-th
iterate of multiplication by `q` on `points[i]` (the source fills column by
column through `tmp_point = tmp_point.mul(&q)`, storing the affine form
before each multiplication, so position `j*n + i` is `q^j · points[i]`). -/
def buildTable {G : Type} [AddCommGroup G] (q : Nat) (points : List G) :
    Nat → List G
  | 0 => []
  | h + 1 => buildTable q points h ++ points.map fun p => (fun x => g1_mul x q)^[h] p

/-- BgmwTable::new (bgmw.rs lines 119-152): chooses the window, computes the
table dimensions, and fills the `numpoints * h` matrix.  `q` is
`TFr::from_u64(1u64 << window_width)`, so a width of 64 or more would
overflow the shift and panic (`none`); `try_reserve_exact` failure
(allocation) is modelled as success. -/
def BgmwTable.new {G : Type} [AddCommGroup G] (pws : Nat → Nat)
    (bkd : Nat → Nat → Nat × Nat × Nat) (ncpus : Nat) (points : List G) :
    Option (BgmwTable G) :=
  let window := windowSelect pws bkd ncpus points.length
  let dims := get_table_dimensions window
  if dims.1 < 64 then
    some { window := window
           points := buildTable (2 ^ dims.1) points dims.2
           numpoints := points.length
           h := dims.2 }
  else none

/-- The per-scalar window digit computed at the head of p1_tile_bgmw
(bgmw.rs lines 564-589): mask of `wbits+1` ones, the `z` flag for the
least-significant window, the carry offset of `bit0`/`wbits` for interior
windows, extraction via `get_wval_limb`, the shift by `z`, the mask
(an all-ones mask, i.e. reduction mod `2^(wbits+1)`), and `booth_encode`
with `cbits`. -/
def tileDigit (bit0 wbits cbits : Nat) (s : Nat) : Int :=
  let wmask := 2 ^ (wbits + 1) - 1
  let z := is_zero bit0
  let bit0a := bit0 - (z ^^^ 1)
  let wbitsa := wbits + (z ^^^ 1)
  booth_encode (get_wval_limb s bit0a wbitsa <<< z &&& wmask) cbits

/-- The lookahead loop of p1_tile_bgmw (bgmw.rs lines 598-618), in cursor
form: `ps` holds `points[i..]`, `ss` holds `scalars[i+1..]`, `wnxt` the
digit Booth-encoded from `scalars[i]` on the previous step, and `n` the
number of remaining iterations of `for i in 1..npoints`.  Each step reads
the next scalar (panics — `none` — if it is out of range), encodes it,
reads `points[i]` (again `none` when out of range) and decodes the carried
digit into the buckets.  Returns the buckets with the last carried digit. -/
def tileLoop {G : Type} [AddCommGroup G] (dg : Nat → Int) :
    Nat → List G → List Nat → Int → (Nat → G) → Option ((Nat → G) × Int)
  | 0, _, _, wnxt, b => some (b, wnxt)
  | n + 1, ps, ss, wnxt, b => do
    let s ← ss.head?
    let p ← ps.head?
    tileLoop dg n ps.tail ss.tail (dg s) (booth_decode b wnxt p)

/-- p1_tile_bgmw (bgmw.rs lines 549-623): reads `scalars[0]`, `points[0]`
and the lookahead `scalars[1]` (each read is `none` when out of range — in
particular every call with fewer than two scalars panics), decodes the first
point, runs the lookahead loop over `i in 1..npoints` with
`npoints = scalars.len() - 1`, and decodes `points[npoints]` with the last
carried digit. -/
def p1_tile_bgmw {G : Type} [AddCommGroup G] (points : List G)
    (scalars : List Nat) (b : Nat → G) (bit0 wbits cbits : Nat) :
    Option (Nat → G) := do
  let dg := tileDigit bit0 wbits cbits
  let s0 ← scalars.get? 0
  let p0 ← points.get? 0
  let s1 ← scalars.get? 1
  let n := scalars.length - 1
  let st ← tileLoop dg (n - 1) (points.drop 1) (scalars.drop 2) (dg s1)
    (booth_decode b (dg s0) p0)
  let plast ← (points.drop n).head?
  some (booth_decode st.1 st.2 plast)

/-- The loop of integrate_buckets (bgmw.rs lines 645-655): `n` counts the
remaining iterations; each one decrements `n`, folds `buckets[n]` into the
running accumulator unless that bucket is the group identity
(`type_is_zero`), and folds the accumulator into the running total. -/
def integrateLoop {G : Type} [AddCommGroup G] [DecidableEq G] (b : Nat → G) :
    Nat → G → G → G
  | 0, ret, _ => ret
  | n + 1, ret, acc =>
    let acc2 := if b n = 0 then acc else acc + b n
    integrateLoop b n (ret + acc2) acc2

/-- integrate_buckets (bgmw.rs lines 636-658): starts from bucket
`2^wbits - 1` as both total and accumulator and runs the triangular
running-doubling sum; `p1_to_jacobian` (the representation conversion of the
primitives layer) is the identity in this model. -/
def integrate_buckets {G : Type} [AddCommGroup G] [DecidableEq G]
    (b : Nat → G) (wbits : Nat) : G :=
  integrateLoop b (2 ^ wbits - 1) (b (2 ^ wbits - 1)) (b (2 ^ wbits - 1))

/-- Rust slice `&l[a..b]` (used for the table rows in both multiply paths):
panics — `none` — unless `a <= b <= l.len()`. -/
def sliceRange {G : Type} (l : List G) (a b : Nat) : Option (List G) :=
  if a ≤ b ∧ b ≤ l.length then some ((l.drop a).take (b - a)) else none

/-- The window-level loop of multiply_sequential (bgmw.rs lines 164-182):
state `(bit0, q_idx, wbits, cbits, buckets)`; each iteration subtracts
`wbits` from `bit0` and decrements `q_idx`, stops before the tile call once
`bit0` reaches 0 (handing back the buckets and the current `wbits`/`cbits`
for the final row-0 tile), and otherwise runs `p1_tile_bgmw` on table row
`q_idx` and continues with `wbits = cbits = window`.  The loop in the source
has no exit other than `bit0 == 0`; the explicit fuel (256 suffices for
every reachable state, see `multiply_sequential`) only makes the recursion
structural, with `none` standing for non-termination. -/
def seqLoop {G : Type} [AddCommGroup G] (pointsArr : List G)
    (scalars : List Nat) (np window : Nat) :
    Nat → Nat → Nat → Nat → Nat → (Nat → G) → Option ((Nat → G) × Nat × Nat)
  | 0, _, _, _, _, _ => none
  | fuel + 1, bit0, q_idx, wbits, cbits, b =>
    let bit0b := bit0 - wbits
    let qb := q_idx - 1
    if bit0b = 0 then some (b, wbits, cbits)
    else do
      let row ← sliceRange pointsArr (qb * np) ((qb + 1) * np)
      let b2 ← p1_tile_bgmw row scalars b bit0b wbits cbits
      seqLoop pointsArr scalars np window fuel bit0b qb window window b2

/-- BgmwTable::multiply_sequential (bgmw.rs lines 154-196): takes the Sync
window width (panicking on a Parallel window), initialises
`wbits = 255 % window`, `cbits = wbits + 1`, `bit0 = 255`, `q_idx = h` and
zeroed buckets, runs the window-level loop, runs the final row-0 tile with
`bit0 = 0`, and integrates the buckets with `wbits - 1`.  A zero window
would panic on `255 % 0` (and on the bucket allocation `1 << (window - 1)`).
The fuel 257 given to the loop covers every terminating run: `bit0` starts
at 255 and after the first iteration strictly decreases by `window ≥ 1`. -/
def multiply_sequential {G : Type} [AddCommGroup G] [DecidableEq G]
    (t : BgmwTable G) (scalars : List Nat) : Option G := do
  let window ← get_sequential_window_size t.window
  if window = 0 then none
  else do
    let r := NBITS % window
    let st ← seqLoop t.points scalars t.numpoints window 257 NBITS t.h r
      (r + 1) (fun _ => 0)
    let row0 ← sliceRange t.points 0 t.numpoints
    let bF ← p1_tile_bgmw row0 scalars st.1 0 st.2.1 st.2.2
    some (integrate_buckets bF (st.2.1 - 1))

/-- Tile work-item descriptor of multiply_parallel (bgmw.rs lines 211-216). -/
structure Tile where
  x : Nat
  dx : Nat
  y : Nat
  dy : Nat
deriving DecidableEq, Repr

/-- The grid materialisation of multiply_parallel (bgmw.rs lines 224-251):
`nx` top-row tiles at `y = window*(ny-1)` with `dy = 255 - y` and
`dx = npoints / nx` (the last column absorbing the remainder), followed, for
`y` stepping down by `window` until 0, by a copy of the column layout with
`dy = window`.  Row order follows the source's `while y != 0` loop:
`window*(ny-2), window*(ny-3), ..., 0`. -/
def makeGrid (npoints nx ny window : Nat) : List Tile :=
  let dx := npoints / nx
  let colx := fun i : Nat => i * dx
  let coldx := fun i : Nat => if i = nx - 1 then npoints - (nx - 1) * dx else dx
  let y0 := window * (ny - 1)
  ((List.range nx).map fun i => ⟨colx i, coldx i, y0, 255 - y0⟩) ++
    (List.range (ny - 1)).flatMap fun k =>
      (List.range nx).map fun i => ⟨colx i, coldx i, window * (ny - 2 - k), window⟩

/-- One tile of the worker loop of multiply_parallel (bgmw.rs lines
287-301): locate the table row slice for the tile (a panic — `none` — if the
slice is out of range), truncate the boundary row's bit width, and run
`p1_tile_bgmw` on the tile's scalar sub-slice into the worker's buckets. -/
def runTile {G : Type} [AddCommGroup G] (t : BgmwTable G)
    (scalars : List Nat) (window : Nat) (b : Nat → G) (tl : Tile) :
    Option (Nat → G) := do
  let row_start := tl.y / window * t.numpoints + tl.x
  let pts ← sliceRange t.points row_start (row_start + tl.dx)
  let wc := if NBITS < tl.y + window then (NBITS - tl.y, NBITS - tl.y + 1)
    else (window, window)
  p1_tile_bgmw pts (scalars.drop tl.x) b tl.y wc.1 wc.2

/-- One worker of multiply_parallel (bgmw.rs lines 272-303): processes the
tiles it claims from the shared counter into its private bucket array (a
panicking tile means the worker never sends its result and the join blocks
forever — `none`), then integrates the buckets once with `window - 1`. -/
def workerRun {G : Type} [AddCommGroup G] [DecidableEq G] (t : BgmwTable G)
    (scalars : List Nat) (window : Nat) (tiles : List Tile) : Option G := do
  let b ← tiles.foldlM (fun b tl => runTile t scalars window b tl)
    (fun _ => (0 : G))
  some (integrate_buckets b (window - 1))

/-- BgmwTable::multiply_parallel (bgmw.rs lines 199-313).  A Sync window
immediately falls back to multiply_sequential.  Otherwise the tile grid is
materialised, `min(ncpus, total)` workers drain it through the atomic
counter, and the per-worker partial results are combined by group addition.
The runtime pool size `ncpus` and the scheduling are environment inputs, so
they are parameters: `asg i % n_workers` names the worker that claims tile
`i` (every tile is claimed by exactly one worker; each worker sees its tiles
in counter order, i.e. index order).  `nx = 0` (division by zero and an
out-of-bounds `grid[total-1]`), `ny = 0` (usize underflow on `ny - 1`) and
`window = 0` (a non-terminating `while y != 0`) are modelled as `none`. -/
def multiply_parallel {G : Type} [AddCommGroup G] [DecidableEq G]
    (ncpus : Nat) (asg : Nat → Nat) (t : BgmwTable G) (scalars : List Nat) :
    Option G :=
  match t.window with
  | BgmwWindow.Sync _ => multiply_sequential t scalars
  | BgmwWindow.Parallel nx ny window =>
    if nx = 0 ∨ ny = 0 ∨ window = 0 then none
    else
      let grid := makeGrid scalars.length nx ny window
      let total := grid.length
      let n_workers := min ncpus total
      let tilesFor := fun w =>
        ((List.range total).filter fun i => asg i % n_workers = w).filterMap
          grid.get?
      match (List.range n_workers).mapM
          (fun w => workerRun t scalars window (tilesFor w)) with
      | none => none
      | some rs => some (rs.foldl (· + ·) 0)

/-- Defined from the spec, for the refinement claim C8 (§4.5): a fresh
bucket array for one window level is filled by decoding, "for every
point/scalar pair", the Booth digit of the current window of the scalar into
the buckets — without the lookahead, which §4.5 calls "purely a scheduling
optimization the implementer may omit". -/
def levelFillFrom {G : Type} [AddCommGroup G] (dg : Nat → Int) :
    List G → List Nat → (Nat → G) → (Nat → G)
  | _, [], b => b
  | [], _ :: _, b => b
  | p :: ps, s :: ss, b => levelFillFrom dg ps ss (booth_decode b (dg s) p)

/-- Row `l` of the table matrix: the `numpoints` entries starting at
`l * numpoints`. -/
def tableRow {G : Type} (t : BgmwTable G) (l : Nat) : List G :=
  (t.points.drop (l * t.numpoints)).take t.numpoints

/-- Defined from the spec, for the refinement claim C8 (§4.5, and the §4.3
edge case): the window parameters of level `l` out of `h` — windows of
`window` bits starting at bit `l * window`, except that the top (boundary)
level covers only the remaining `NBITS - l*window` bits and carries one more
carry bit, and the bottom level (`bit0 = 0`) is recognised by `tileDigit`
itself through its `z` flag. -/
def levelParams (window h l : Nat) : Nat × Nat × Nat :=
  if l = h - 1 then (l * window, NBITS - l * window, NBITS - l * window + 1)
  else (l * window, window, window)

/-- Defined from the spec, for the refinement claim C8 (§4.5): the partial
point of window level `l` — a fresh bucket array filled from table row `l`
and the scalars' level-`l` windows, then integrated. -/
def referencePartial {G : Type} [AddCommGroup G] [DecidableEq G]
    (t : BgmwTable G) (scalars : List Nat) (window l : Nat) : G :=
  let pr := levelParams window t.h l
  integrate_buckets
    (levelFillFrom (tileDigit pr.1 pr.2.1 pr.2.2) (tableRow t l) scalars
      (fun _ => 0))
    (window - 1)

/-- Defined from the spec, for the refinement claim C8: accumulation of the
partial points of levels `l < n` into the running result. -/
def referenceAccum {G : Type} [AddCommGroup G] [DecidableEq G]
    (t : BgmwTable G) (scalars : List Nat) (window : Nat) : Nat → G
  | 0 => 0
  | l + 1 => referencePartial t scalars window l + referenceAccum t scalars window l

/-- Defined from the spec, for the refinement claim C8 (§4.5): the reference
evaluation that processes the `h` window levels independently — fresh
buckets per level, one integration per level — and accumulates the `h`
partial points. -/
def referenceSequential {G : Type} [AddCommGroup G] [DecidableEq G]
    (t : BgmwTable G) (scalars : List Nat) : Option G := do
  let window ← get_sequential_window_size t.window
  if window = 0 then none
  else some (referenceAccum t scalars window t.h)

/-- Little-endian byte encoding of `usize::to_le_bytes` truncated/padded to
`k` bytes (the source always uses `k = 8`, `write_usize`, bgmw.rs lines
477-485). -/
def leBytes : Nat → Nat → List Nat
  | 0, _ => []
  | k + 1, n => n % 256 :: leBytes k (n / 256)

/-- `usize::from_le_bytes` on a byte list. -/
def leToNat : List Nat → Nat
  | [] => 0
  | b :: bs => b + 256 * leToNat bs

/-- read_usize (bgmw.rs lines 375-380): `read_exact` of 8 bytes (a short
stream is an error) decoded little-endian, returning the rest of the
stream. -/
def read_usize (bs : List Nat) : Option (Nat × List Nat) :=
  if 8 ≤ bs.length then some (leToNat (bs.take 8), bs.drop 8) else none

/-- read_window (bgmw.rs lines 383-406, `parallel` feature): one u64 tag,
then one u64 payload for tag 1 (Sync) or three for tag 3 (Parallel); any
other tag is the "Invalid window type" error. -/
def read_window (bs : List Nat) : Option (BgmwWindow × List Nat) := do
  let tg ← read_usize bs
  match tg.1 with
  | 1 => do
    let w ← read_usize tg.2
    some (BgmwWindow.Sync w.1, w.2)
  | 3 => do
    let nx ← read_usize tg.2
    let ny ← read_usize nx.2
    let w ← read_usize ny.2
    some (BgmwWindow.Parallel nx.1 ny.1 w.1, w.2)
  | _ => none

/-- The fixed-size point (de)serializers consumed from the primitives layer
(§6): 48-byte compressed `to_bytes`/`from_bytes` and 96-byte uncompressed
`serialize`/`deserialize`, with validating deserialization (`none` rejects a
point). -/
structure PointCodec (G : Type) where
  to_bytes : G → List Nat
  from_bytes : List Nat → Option G
  serializeP : G → List Nat
  deserializeP : List Nat → Option G

/-- The batch reader (io_utils.rs `batch_reader`, here the sequential
`sync_reader` / `sync_io_batch_reader` semantics used by read_points with
`par_io = None`): `n` records of `sz` bytes each, each decoded by `dec`; a
truncated stream or a record that fails to decode is an error. -/
def readRecords {G : Type} (dec : List Nat → Option G) (sz : Nat) :
    Nat → List Nat → Option (List G × List Nat)
  | 0, bs => some ([], bs)
  | n + 1, bs =>
    if sz ≤ bs.length then do
      let p ← dec (bs.take sz)
      let pr ← readRecords dec sz n (bs.drop sz)
      some (p :: pr.1, pr.2)
    else none

/-- read_points (bgmw.rs lines 416-461): `numpoints * h` records of 48
(compressed, `from_bytes`) or 96 (uncompressed, `deserialize`) bytes;
`into_affine` is the identity in this model. -/
def read_points {G : Type} (codec : PointCodec G) (compressed : Bool)
    (numpoints h : Nat) (bs : List Nat) : Option (List G × List Nat) :=
  if compressed then readRecords codec.from_bytes 48 (numpoints * h) bs
  else readRecords codec.deserializeP 96 (numpoints * h) bs

/-- read_from_reader (bgmw.rs lines 359-373): window, numpoints, h, then the
points; the header fields are stored verbatim in the returned table.
Trailing bytes are not inspected. -/
def read_from_reader {G : Type} (codec : PointCodec G) (compressed : Bool)
    (bs : List Nat) : Option (BgmwTable G) := do
  let wd ← read_window bs
  let np ← read_usize wd.2
  let hh ← read_usize np.2
  let pts ← read_points codec compressed np.1 hh.1 hh.2
  some { window := wd.1, points := pts.1, numpoints := np.1, h := hh.1 }

/-- write_window (bgmw.rs lines 487-514, `parallel` feature): tag 1 plus the
width for Sync, tag 3 plus `(nx, ny, width)` for Parallel, each as a u64. -/
def write_window : BgmwWindow → List Nat
  | BgmwWindow.Sync w => leBytes 8 1 ++ leBytes 8 w
  | BgmwWindow.Parallel nx ny w =>
    leBytes 8 3 ++ leBytes 8 nx ++ leBytes 8 ny ++ leBytes 8 w

/-- write_to_writer (bgmw.rs lines 470-546): window, numpoints, h, then
every table point through `to_proj` (identity here) and the chosen
serializer. -/
def write_to_writer {G : Type} (codec : PointCodec G) (compressed : Bool)
    (t : BgmwTable G) : List Nat :=
  write_window t.window ++ leBytes 8 t.numpoints ++ leBytes 8 t.h ++
    t.points.flatMap fun p =>
      if compressed then codec.to_bytes p else codec.serializeP p

/-- A concrete codec on ℤ used by the witnesses: values in `[0, 2^380)`
round-trip; larger byte strings fail validation (modelling a point that
fails curve-membership checks). -/
def intCodec : PointCodec Int where
  to_bytes p := leBytes 48 p.toNat
  from_bytes bs :=
    if leToNat bs < 2 ^ 380 then some (Int.ofNat (leToNat bs)) else none
  serializeP p := leBytes 96 p.toNat
  deserializeP bs :=
    if leToNat bs < 2 ^ 380 then some (Int.ofNat (leToNat bs)) else none

section ProofLayer

variable {G : Type} [AddCommGroup G]

/-- Repeated doubling computes ordinary scalar multiplication. -/
theorem g1_mul_eq (p : G) : ∀ n : Nat, g1_mul p n = n • p := by
  intro n
  induction n using Nat.strong_induction_on with
  | _ n ih =>
    match n with
    | 0 => simp [g1_mul]
    | Nat.succ m =>
      rw [g1_mul, ih ((m + 1) / 2) (Nat.div_lt_self (Nat.succ_pos m) (by decide))]
      by_cases hp : (m + 1) % 2 = 0
      · have hb : ((m + 1) / 2) • p + ((m + 1) / 2) • p = (m + 1) • p := by
          rw [← add_nsmul]; congr 1; omega
        simpa [hp] using hb
      · have hm : (m + 1) / 2 + (m + 1) / 2 + 1 = m + 1 := by omega
        have hb : ((m + 1) / 2) • p + ((m + 1) / 2) • p + p = (m + 1) • p := by
          calc ((m + 1) / 2) • p + ((m + 1) / 2) • p + p
              = ((m + 1) / 2 + (m + 1) / 2) • p + p := by rw [add_nsmul]
            _ = ((m + 1) / 2 + (m + 1) / 2 + 1) • p := (succ_nsmul p _).symm
            _ = (m + 1) • p := by rw [hm]
        simpa [hp] using hb

/-- Decoding into a pointwise sum of bucket states decodes into the second
summand. -/
theorem booth_decode_add (x y : Nat → G) (d : Int) (p : G) :
    booth_decode (x + y) d p = x + booth_decode y d p := by
  unfold booth_decode
  by_cases h1 : 0 < d
  · simp only [if_pos h1]
    funext i
    by_cases h2 : i = d.toNat - 1 <;> simp [h2, Pi.add_apply, add_assoc]
  · simp only [if_neg h1]
    by_cases h3 : d < 0
    · simp only [if_pos h3]
      funext i
      by_cases h2 : i = (-d).toNat - 1 <;>
        simp [h2, Pi.add_apply, add_sub_assoc]
    · simp [if_neg h3]

/-- Level filling from a pointwise sum of bucket states fills the second
summand. -/
theorem levelFillFrom_add (dg : Nat → Int) :
    ∀ (S : List Nat) (P : List G) (x y : Nat → G),
      levelFillFrom dg P S (x + y) = x + levelFillFrom dg P S y := by
  intro S
  induction S with
  | nil => intro P x y; cases P <;> rfl
  | cons s ss ih =>
    intro P x y
    cases P with
    | nil => rfl
    | cons p ps =>
      show levelFillFrom dg ps ss (booth_decode (x + y) (dg s) p) = _
      rw [booth_decode_add, ih]
      rfl

/-- Level filling from arbitrary initial buckets is the initial buckets plus
the fill from zero. -/
theorem levelFillFrom_eq_add (dg : Nat → Int) (S : List Nat) (P : List G)
    (b : Nat → G) :
    levelFillFrom dg P S b = b + levelFillFrom dg P S 0 := by
  have h := levelFillFrom_add dg S P b 0
  simpa using h

/-- Appending one more point/scalar pair to a level fill decodes that pair
last. -/
theorem levelFillFrom_append (dg : Nat → Int) :
    ∀ (ys : List Nat) (xs : List G) (x : G) (rest : List G) (y : Nat)
      (b : Nat → G), xs.length = ys.length →
      levelFillFrom dg (xs ++ x :: rest) (ys ++ [y]) b
        = booth_decode (levelFillFrom dg xs ys b) (dg y) x := by
  intro ys
  induction ys with
  | nil =>
    intro xs x rest y b hlen
    have hx : xs = [] := by simpa using hlen
    subst hx
    simp [levelFillFrom]
  | cons y0 ys ih =>
    intro xs x rest y b hlen
    cases xs with
    | nil => simp at hlen
    | cons x0 xs =>
      show levelFillFrom dg (xs ++ x :: rest) (ys ++ [y])
          (booth_decode b (dg y0) x0) = _
      rw [ih xs x rest y _ (by simpa using hlen)]
      rfl

variable [DecidableEq G]

/-- Loop invariant of integrate_buckets: after `n` remaining iterations the
total is `ret + Σ_{m<n} (m+1)·buckets[m] + n·acc`. -/
theorem integrateLoop_eq (b : Nat → G) :
    ∀ (n : Nat) (ret acc : G),
      integrateLoop b n ret acc
        = ret + (∑ m ∈ Finset.range n, (m + 1) • b m) + n • acc := by
  intro n
  induction n with
  | zero => intro ret acc; simp [integrateLoop]
  | succ n ih =>
    intro ret acc
    have hacc : (if b n = 0 then acc else acc + b n) = acc + b n := by
      split <;> simp [*]
    rw [integrateLoop, hacc, ih]
    rw [Finset.sum_range_succ, smul_add, succ_nsmul, succ_nsmul]
    abel

/-- integrate_buckets computes the weighted bucket sum
`Σ_{m < 2^wbits} (m+1)·buckets[m]`. -/
theorem integrate_buckets_eq (b : Nat → G) (wbits : Nat) :
    integrate_buckets b wbits
      = ∑ m ∈ Finset.range (2 ^ wbits), (m + 1) • b m := by
  have hpos : 0 < 2 ^ wbits := Nat.pos_pow_of_pos wbits (by decide)
  obtain ⟨L, hL⟩ : ∃ L, 2 ^ wbits = L + 1 :=
    ⟨2 ^ wbits - 1, (Nat.succ_pred_eq_of_pos hpos).symm⟩
  rw [integrate_buckets, integrateLoop_eq, hL]
  simp only [Nat.add_sub_cancel]
  rw [Finset.sum_range_succ, succ_nsmul]
  abel

/-- Bucket integration is additive in the bucket state. -/
theorem integrate_buckets_add (x y : Nat → G) (wbits : Nat) :
    integrate_buckets (x + y) wbits
      = integrate_buckets x wbits + integrate_buckets y wbits := by
  simp [integrate_buckets_eq, Pi.add_apply, smul_add, Finset.sum_add_distrib]

/-- Integrating the all-zero bucket state gives the identity. -/
theorem integrate_buckets_zero (wbits : Nat) :
    integrate_buckets (0 : Nat → G) wbits = 0 := by
  simp [integrate_buckets_eq]

/-- Characterisation of the p1_tile_bgmw lookahead loop: with cursors
aligned at index `i` (`ps = points[i..]`, `ss = scalars[i+1..]`), a carried
digit encoded from scalar `i`, and enough points, the loop decodes the pairs
in order and hands back the digit of the last scalar. -/
theorem tileLoop_char (dg : Nat → Int) :
    ∀ (ss : List Nat) (ps : List G) (sC : Nat) (b : Nat → G),
      ss.length ≤ ps.length →
      tileLoop dg ss.length ps ss (dg sC) b
        = some (levelFillFrom dg (ps.take ss.length)
            ((sC :: ss).take ss.length) b, dg ((sC :: ss).getD ss.length 0)) := by
  intro ss
  induction ss with
  | nil => intro ps sC b _; simp [tileLoop, levelFillFrom]
  | cons s ss ih =>
    intro ps sC b hlen
    cases ps with
    | nil => simp at hlen
    | cons p ps =>
      show tileLoop dg (ss.length + 1) (p :: ps) (s :: ss) (dg sC) b = _
      rw [tileLoop]
      simp only [List.head?_cons, Option.bind_eq_bind, Option.some_bind,
        List.tail_cons]
      rw [ih ps s (booth_decode b (dg sC) p) (by simpa using hlen)]
      rfl

/-- Characterisation of p1_tile_bgmw on inputs where it does not panic
(at least two scalars, at least as many points as scalars): it decodes every
scalar's Booth digit into the buckets against the point of the same index,
i.e. it performs the level fill of §4.5 starting from the given buckets. -/
theorem p1_tile_eq (P : List G) (S : List Nat) (b : Nat → G)
    (bit0 wbits cbits : Nat) (h2 : 2 ≤ S.length) (hle : S.length ≤ P.length) :
    p1_tile_bgmw P S b bit0 wbits cbits
      = some (levelFillFrom (tileDigit bit0 wbits cbits) P S b) := by
  obtain ⟨s0, S1, rfl⟩ : ∃ a l, S = a :: l := by
    cases S with
    | nil => simp at h2
    | cons a l => exact ⟨a, l, rfl⟩
  obtain ⟨s1, ss, rfl⟩ : ∃ a l, S1 = a :: l := by
    cases S1 with
    | nil => simp at h2
    | cons a l => exact ⟨a, l, rfl⟩
  obtain ⟨p0, P1, rfl⟩ : ∃ a l, P = a :: l := by
    cases P with
    | nil => simp at hle
    | cons a l => exact ⟨a, l, rfl⟩
  have hlen : ss.length + 1 ≤ P1.length := by
    simpa [Nat.succ_le_succ_iff] using hle
  have hLlt : ss.length < P1.length := hlen
  set dg := tileDigit bit0 wbits cbits with hdg
  show (do
      let st ← tileLoop dg (ss.length + 2 - 1 - 1) (P1.drop 0) (ss.drop 0)
        (dg s1) (booth_decode b (dg s0) p0)
      let plast ← ((p0 :: P1).drop (ss.length + 2 - 1)).head?
      some (booth_decode st.1 st.2 plast) : Option (Nat → G)) = _
  have ha1 : ss.length + 2 - 1 - 1 = ss.length := by omega
  have ha2 : ss.length + 2 - 1 = ss.length + 1 := by omega
  rw [ha1, ha2]
  simp only [List.drop_zero]
  have hloop := tileLoop_char dg ss P1 s1 (booth_decode b (dg s0) p0)
    (Nat.le_of_lt hLlt)
  rw [hloop]
  have hhead : (P1.drop ss.length).head? = some (P1.getD ss.length 0) := by
    rw [List.head?_drop, List.getElem?_eq_getElem hLlt,
      List.getD_eq_getElem P1 0 hLlt]
  simp only [Option.bind_eq_bind, Option.some_bind, List.drop_succ_cons]
  rw [hhead]
  simp only [Option.some_bind]
  congr 1
  have hP1 : P1 = P1.take ss.length ++ P1.getD ss.length 0 ::
      P1.drop (ss.length + 1) := by
    conv_lhs => rw [← List.take_append_drop ss.length P1]
    rw [List.drop_eq_getElem_cons hLlt, List.getD_eq_getElem P1 0 hLlt]
  have hS1 : s1 :: ss = (s1 :: ss).take ss.length ++
      [(s1 :: ss).getD ss.length 0] := by
    have hl : ss.length < (s1 :: ss).length := by simp
    conv_lhs => rw [← List.take_append_drop ss.length (s1 :: ss)]
    rw [List.drop_eq_getElem_cons hl, List.getD_eq_getElem _ 0 hl]
    have : (s1 :: ss).drop (ss.length + 1) = [] := by
      apply List.drop_eq_nil_of_le
      simp
    rw [this]
  have hunf : levelFillFrom dg (p0 :: P1) (s0 :: s1 :: ss) b
      = levelFillFrom dg P1 (s1 :: ss) (booth_decode b (dg s0) p0) := rfl
  rw [hunf]
  conv_rhs => rw [hP1, hS1]
  rw [levelFillFrom_append]
  simp [Nat.le_of_lt hLlt]

/-- Characterisation of the interior iterations of the multiply_sequential
loop: started at `bit0 = j*w` with row index `j` and interior window
parameters, the loop processes rows `j-1, ..., 1` (each with window
parameters `(l*w, w, w)`) and stops with `bit0 = 0`, accumulating the level
fills of those rows into the bucket state. -/
theorem seqLoop_eq (P : List G) (S : List Nat) (np w : Nat) (hw : 1 ≤ w)
    (h2 : 2 ≤ S.length) (hSnp : S.length ≤ np) :
    ∀ (j fuel : Nat) (b : Nat → G), 1 ≤ j → j ≤ fuel → j * np ≤ P.length →
      seqLoop P S np w fuel (j * w) j w w b
        = some (b + ∑ l ∈ Finset.Ico 1 j,
            levelFillFrom (tileDigit (l * w) w w)
              ((P.drop (l * np)).take np) S 0, w, w) := by
  intro j
  induction j with
  | zero => intro fuel b hj; omega
  | succ j ih =>
    intro fuel b _ hfuel hP
    obtain ⟨f, rfl⟩ : ∃ f, fuel = f + 1 := by
      cases fuel with
      | zero => omega
      | succ f => exact ⟨f, rfl⟩
    rw [seqLoop]
    have hb0 : (j + 1) * w - w = j * w := by
      rw [Nat.succ_mul, Nat.add_sub_cancel]
    have hqb : j + 1 - 1 = j := by omega
    rw [hb0, hqb]
    cases j with
    | zero =>
      simp only [Nat.zero_mul, if_pos rfl]
      simp
    | succ j =>
      have hjw : (j + 1) * w ≠ 0 := by positivity
      rw [if_neg hjw]
      have hslice : sliceRange P ((j + 1) * np) ((j + 1 + 1) * np)
          = some ((P.drop ((j + 1) * np)).take np) := by
        rw [sliceRange, if_pos]
        · congr 1
          rw [Nat.succ_mul (j + 1), Nat.add_sub_cancel_left]
        · exact ⟨Nat.mul_le_mul_right np (by omega), hP⟩
      rw [hslice]
      have hrowlen : S.length ≤ ((P.drop ((j + 1) * np)).take np).length := by
        rw [List.length_take, List.length_drop]
        have : np ≤ P.length - (j + 1) * np := by
          have := hP
          rw [Nat.succ_mul (j + 1)] at this
          omega
        omega
      rw [Option.bind_eq_bind, Option.some_bind]
      rw [p1_tile_eq _ _ _ _ _ _ h2 hrowlen]
      simp only [Option.bind_eq_bind, Option.some_bind]
      rw [levelFillFrom_eq_add]
      rw [ih f (b + levelFillFrom (tileDigit ((j + 1) * w) w w)
        ((P.drop ((j + 1) * np)).take np) S 0) (by omega) (by omega)
        (le_trans (Nat.mul_le_mul_right np (by omega)) hP)]
      congr 2
      rw [Finset.sum_Ico_succ_top (by omega : 1 ≤ j + 1)]
      abel

/-- Bucket integration commutes with finite sums of bucket states. -/
theorem integrate_buckets_sum (s : Finset Nat) (d : Nat → (Nat → G))
    (k : Nat) :
    integrate_buckets (∑ l ∈ s, d l) k
      = ∑ l ∈ s, integrate_buckets (d l) k := by
  simp only [integrate_buckets_eq, Finset.sum_apply, Finset.smul_sum]
  exact Finset.sum_comm

/-- The reference accumulator is the sum of the level partials. -/
theorem referenceAccum_eq (t : BgmwTable G) (S : List Nat) (w : Nat) :
    ∀ n, referenceAccum t S w n
      = ∑ l ∈ Finset.range n, referencePartial t S w l := by
  intro n
  induction n with
  | zero => simp [referenceAccum]
  | succ n ih =>
    rw [referenceAccum, ih, Finset.sum_range_succ]
    abel

/-- The central refinement fact behind claim C8: on a Sync-window table with
consistent dimensions and at least two point/scalar pairs (no fewer scalars
than the spec's required `scalars.len() == numpoints`), the implementation —
one shared bucket array, one final integration — returns exactly the
spec's per-level reference evaluation. -/
theorem multiply_sequential_eq_reference (t : BgmwTable G) (S : List Nat)
    (w : Nat) (hwin : t.window = BgmwWindow.Sync w) (hw1 : 1 ≤ w)
    (hw255 : w ≤ NBITS) (hh : t.h = NBITS / w + 1)
    (hlen : t.points.length = t.numpoints * t.h) (h2 : 2 ≤ S.length)
    (hSnp : S.length ≤ t.numpoints) :
    multiply_sequential t S = referenceSequential t S := by
  have hw0 : ¬ w = 0 := by omega
  have hdm : w * (NBITS / w) + NBITS % w = NBITS := Nat.div_add_mod NBITS w
  have hq1 : 1 ≤ NBITS / w := Nat.div_pos hw255 (by omega)
  have hq256 : NBITS / w ≤ 256 :=
    le_trans (Nat.div_le_self NBITS w) (by norm_num [NBITS])
  have hb : NBITS - NBITS % w = w * (NBITS / w) :=
    Nat.sub_eq_of_eq_add hdm.symm
  have hh1 : t.h - 1 = NBITS / w := by omega
  set np := t.numpoints with hnp
  have hlen2 : t.points.length = (NBITS / w + 1) * np := by
    rw [hlen, hh, Nat.mul_comm]
  -- the level deltas, as produced by the implementation
  set dtop : Nat → G := levelFillFrom
    (tileDigit ((NBITS / w) * w) (NBITS % w) (NBITS % w + 1))
    ((t.points.drop ((NBITS / w) * np)).take np) S 0 with hdtop
  set dmid : Nat → (Nat → G) := fun l => levelFillFrom (tileDigit (l * w) w w)
    ((t.points.drop (l * np)).take np) S 0 with hdmid
  -- left side: run the implementation
  have hslice1 : sliceRange t.points ((NBITS / w) * np) ((NBITS / w + 1) * np)
      = some ((t.points.drop ((NBITS / w) * np)).take np) := by
    rw [sliceRange, if_pos]
    · congr 1
      rw [Nat.succ_mul (NBITS / w), Nat.add_sub_cancel_left]
    · exact ⟨Nat.mul_le_mul_right np (by omega), le_of_eq hlen2.symm⟩
  have hrowlen1 : S.length
      ≤ ((t.points.drop ((NBITS / w) * np)).take np).length := by
    rw [List.length_take, List.length_drop, hlen2]
    have hx : (NBITS / w + 1) * np = (NBITS / w) * np + np := Nat.succ_mul _ _
    omega
  have hmq : (NBITS / w) * np ≤ t.points.length := by
    rw [hlen2]
    exact Nat.mul_le_mul_right np (by omega)
  have hnph : np ≤ t.points.length := by
    rw [hlen2]
    have : 1 * np ≤ (NBITS / w + 1) * np := Nat.mul_le_mul_right np (by omega)
    omega
  have hLrun : multiply_sequential t S
      = some (integrate_buckets
          (dtop + ∑ l ∈ Finset.Ico 1 (NBITS / w), dmid l + dmid 0) (w - 1)) := by
    rw [multiply_sequential, hwin]
    show ((some w).bind fun window => _) = _
    rw [Option.some_bind]
    rw [if_neg hw0]
    -- first loop iteration: the boundary (top) row
    show ((seqLoop t.points S np w (256 + 1) NBITS t.h (NBITS % w)
      (NBITS % w + 1) (fun _ => 0)).bind fun st => _) = _
    rw [seqLoop, hb, hh1]
    have hbne : ¬ w * (NBITS / w) = 0 := by
      have h11 : 1 * 1 ≤ w * (NBITS / w) := Nat.mul_le_mul hw1 hq1
      omega
    rw [if_neg hbne]
    have hmulc : w * (NBITS / w) = (NBITS / w) * w := Nat.mul_comm _ _
    rw [hmulc]
    simp only [Option.bind_eq_bind, Option.some_bind, hslice1]
    rw [p1_tile_eq _ _ _ _ _ _ h2 hrowlen1]
    simp only [Option.bind_eq_bind, Option.some_bind]
    -- remaining interior iterations
    have hzero : levelFillFrom
        (tileDigit ((NBITS / w) * w) (NBITS % w) (NBITS % w + 1))
        ((t.points.drop ((NBITS / w) * np)).take np) S (fun _ => 0)
        = dtop := rfl
    rw [hzero]
    rw [seqLoop_eq t.points S np w hw1 h2 hSnp (NBITS / w) 256 dtop hq1
      hq256 hmq]
    simp only [Option.bind_eq_bind, Option.some_bind]
    -- final row-0 tile
    have hslice0 : sliceRange t.points 0 np
        = some ((t.points.drop 0).take np) := by
      rw [sliceRange, if_pos]
      · simp
      · exact ⟨Nat.zero_le np, hnph⟩
    rw [hslice0]
    simp only [Option.bind_eq_bind, Option.some_bind]
    have hrowlen0 : S.length ≤ ((t.points.drop 0).take np).length := by
      rw [List.length_take, List.length_drop]
      omega
    rw [p1_tile_eq _ _ _ _ _ _ h2 hrowlen0]
    simp only [Option.bind_eq_bind, Option.some_bind]
    rw [levelFillFrom_eq_add]
    congr 2
    rw [hdmid]
    simp
  -- right side: the reference
  have hRrun : referenceSequential t S
      = some (integrate_buckets dtop (w - 1)
          + ∑ l ∈ Finset.Ico 1 (NBITS / w), integrate_buckets (dmid l) (w - 1)
          + integrate_buckets (dmid 0) (w - 1)) := by
    rw [referenceSequential, hwin]
    show ((some w).bind fun window => _) = _
    rw [Option.some_bind, if_neg hw0]
    congr 1
    rw [referenceAccum_eq]
    have hsplit : (∑ l ∈ Finset.range t.h, referencePartial t S w l)
        = referencePartial t S w 0
          + (∑ l ∈ Finset.Ico 1 (NBITS / w), referencePartial t S w l)
          + referencePartial t S w (NBITS / w) := by
      rw [hh, Finset.sum_range_succ]
      congr 1
      rw [Finset.range_eq_Ico]
      rw [Finset.sum_eq_sum_Ico_succ_bot (by omega : 0 < NBITS / w)]
    rw [hsplit]
    have hp0 : referencePartial t S w 0
        = integrate_buckets (dmid 0) (w - 1) := by
      rw [referencePartial, levelParams, if_neg (by omega : ¬ 0 = t.h - 1)]
      rfl
    have hpm : ∀ l ∈ Finset.Ico 1 (NBITS / w),
        referencePartial t S w l = integrate_buckets (dmid l) (w - 1) := by
      intro l hl
      rw [Finset.mem_Ico] at hl
      rw [referencePartial, levelParams, if_neg (by omega : ¬ l = t.h - 1)]
      rfl
    have hr : NBITS - (NBITS / w) * w = NBITS % w := by
      rw [Nat.mul_comm (NBITS / w) w]
      exact Nat.sub_eq_of_eq_add (by rw [Nat.add_comm]; exact hdm.symm)
    have hpt : referencePartial t S w (NBITS / w)
        = integrate_buckets dtop (w - 1) := by
      simp only [referencePartial, levelParams, if_pos hh1.symm]
      rw [hr]
      rfl
    rw [hp0, hpt, Finset.sum_congr rfl hpm]
    abel
  rw [hLrun, hRrun]
  rw [integrate_buckets_add, integrate_buckets_add, integrate_buckets_sum]

/-- Iterated multiplication by `q` is scalar multiplication by `q^j`. -/
theorem g1_mul_iterate (q : Nat) (p : G) :
    ∀ j, (fun x => g1_mul x q)^[j] p = (q ^ j) • p := by
  intro j
  induction j with
  | zero => simp
  | succ j ih =>
    rw [Function.iterate_succ_apply', ih]
    show g1_mul ((q ^ j) • p) q = _
    rw [g1_mul_eq, smul_smul, pow_succ, Nat.mul_comm]

/-- The table matrix has exactly `numpoints * h` entries. -/
theorem buildTable_length (q : Nat) (pts : List G) :
    ∀ h, (buildTable q pts h).length = pts.length * h := by
  intro h
  induction h with
  | zero => simp [buildTable]
  | succ h ih =>
    rw [buildTable, List.length_append, ih, List.length_map, Nat.mul_succ]

/-- Row-major indexing into the table matrix: position `j * n + i` holds the
`j`-th multiple-by-`q` iterate of point `i`. -/
theorem buildTable_get (q : Nat) (pts : List G) :
    ∀ (h j i : Nat), j < h → i < pts.length →
      (buildTable q pts h).get? (j * pts.length + i)
        = (pts.get? i).map fun p => (fun x => g1_mul x q)^[j] p := by
  intro h
  induction h with
  | zero => intro j i hj; omega
  | succ h ih =>
    intro j i hj hi
    rw [buildTable]
    by_cases hjh : j < h
    · rw [List.get?_append]
      · exact ih j i hjh hi
      · rw [buildTable_length]
        calc j * pts.length + i < j * pts.length + pts.length := by omega
          _ = (j + 1) * pts.length := (Nat.succ_mul j pts.length).symm
          _ ≤ h * pts.length := Nat.mul_le_mul_right pts.length (by omega)
          _ = pts.length * h := Nat.mul_comm h pts.length
    · have hjeq : j = h := by omega
      subst hjeq
      rw [List.get?_append_right]
      · rw [buildTable_length]
        have hidx : j * pts.length + i - pts.length * j = i := by
          rw [Nat.mul_comm]
          omega
        rw [hidx, List.get?_map]
      · rw [buildTable_length, Nat.mul_comm]
        omega

/-- leBytes produces exactly `k` bytes. -/
theorem leBytes_length : ∀ k n, (leBytes k n).length = k := by
  intro k
  induction k with
  | zero => intro n; rfl
  | succ k ih => intro n; rw [leBytes, List.length_cons, ih]

/-- leToNat inverts leBytes on values that fit. -/
theorem leToNat_leBytes : ∀ k n, n < 256 ^ k → leToNat (leBytes k n) = n := by
  intro k
  induction k with
  | zero => intro n hn; interval_cases n; rfl
  | succ k ih =>
    intro n hn
    rw [leBytes, leToNat, ih (n / 256) (by
      rw [pow_succ] at hn
      exact Nat.div_lt_of_lt_mul (by omega))]
    omega

/-- Reading a u64 from an 8-byte little-endian encoding followed by any
suffix recovers the value and the suffix. -/
theorem read_usize_append (n : Nat) (rest : List Nat) (hn : n < 256 ^ 8) :
    read_usize (leBytes 8 n ++ rest) = some (n, rest) := by
  rw [read_usize, if_pos (by rw [List.length_append, leBytes_length]; omega)]
  have ht : (leBytes 8 n ++ rest).take 8 = leBytes 8 n := by
    conv_lhs => rw [show (8 : Nat) = (leBytes 8 n).length from
      (leBytes_length 8 n).symm]
    exact List.take_left _ _
  have hd : (leBytes 8 n ++ rest).drop 8 = rest := by
    conv_lhs => rw [show (8 : Nat) = (leBytes 8 n).length from
      (leBytes_length 8 n).symm]
    exact List.drop_left _ _
  rw [ht, hd, leToNat_leBytes 8 n hn]

/-- Reading back a written window header recovers the window and leaves the
suffix, for in-range field values. -/
theorem read_window_write (wd : BgmwWindow) (rest : List Nat)
    (hwf : ∀ nx ny w, (wd = BgmwWindow.Sync w → w < 256 ^ 8) ∧
      (wd = BgmwWindow.Parallel nx ny w →
        nx < 256 ^ 8 ∧ ny < 256 ^ 8 ∧ w < 256 ^ 8)) :
    read_window (write_window wd ++ rest) = some (wd, rest) := by
  cases wd with
  | Sync w =>
    rw [write_window, read_window, List.append_assoc]
    rw [read_usize_append 1 _ (by norm_num)]
    simp only [Option.bind_eq_bind, Option.some_bind]
    rw [read_usize_append w _ ((hwf 0 0 w).1 rfl)]
    rfl
  | Parallel nx ny w =>
    obtain ⟨hnx, hny, hw⟩ := (hwf nx ny w).2 rfl
    rw [write_window, read_window]
    rw [List.append_assoc, List.append_assoc, List.append_assoc]
    rw [read_usize_append 3 _ (by norm_num)]
    simp only [Option.bind_eq_bind, Option.some_bind]
    rw [read_usize_append nx _ hnx]
    simp only [Option.bind_eq_bind, Option.some_bind]
    rw [read_usize_append ny _ hny]
    simp only [Option.bind_eq_bind, Option.some_bind]
    rw [read_usize_append w _ hw]
    rfl

omit [AddCommGroup G] [DecidableEq G] in
/-- Reading back a list of written fixed-size records recovers the list and
leaves the suffix. -/
theorem readRecords_append (dec : List Nat → Option G) (enc : G → List Nat)
    (sz : Nat) :
    ∀ (pts : List G) (rest : List Nat),
      (∀ p ∈ pts, (enc p).length = sz ∧ dec (enc p) = some p) →
      readRecords dec sz pts.length (pts.flatMap enc ++ rest)
        = some (pts, rest) := by
  intro pts
  induction pts with
  | nil => intro rest _; rfl
  | cons p ps ih =>
    intro rest hwf
    obtain ⟨hsz, hdec⟩ := hwf p (List.mem_cons_self p ps)
    have hflat : (p :: ps).flatMap enc ++ rest
        = enc p ++ (ps.flatMap enc ++ rest) := by
      rw [List.flatMap_cons, List.append_assoc]
    rw [List.length_cons, readRecords, hflat]
    rw [if_pos (by rw [List.length_append, hsz]; omega)]
    have ht : (enc p ++ (ps.flatMap enc ++ rest)).take sz = enc p := by
      conv_lhs => rw [← hsz]
      exact List.take_left _ _
    have hd : (enc p ++ (ps.flatMap enc ++ rest)).drop sz
        = ps.flatMap enc ++ rest := by
      conv_lhs => rw [← hsz]
      exact List.drop_left _ _
    rw [ht, hd, hdec]
    simp only [Option.bind_eq_bind, Option.some_bind]
    rw [ih rest fun p hp => hwf p (List.mem_cons_of_mem _ hp)]
    rfl

/-- Window equality is constantly false when the left operand is tiled. -/
theorem windowEqB_parallel_left (nx ny w : Nat) (x : BgmwWindow) :
    windowEqB (BgmwWindow.Parallel nx ny w) x = false := by
  cases x <;> rfl

/-- Window equality is constantly false when the right operand is tiled. -/
theorem windowEqB_parallel_right (nx ny w : Nat) (x : BgmwWindow) :
    windowEqB x (BgmwWindow.Parallel nx ny w) = false := by
  cases x <;> rfl

/-- The fields of a table built by BgmwTable::new. -/
theorem new_fields (pws : Nat → Nat) (bkd : Nat → Nat → Nat × Nat × Nat)
    (ncpus : Nat) (pts : List G) (t : BgmwTable G)
    (hnew : BgmwTable.new pws bkd ncpus pts = some t) :
    t.window = windowSelect pws bkd ncpus pts.length
    ∧ t.points = buildTable
        (2 ^ (get_table_dimensions (windowSelect pws bkd ncpus pts.length)).1)
        pts (get_table_dimensions (windowSelect pws bkd ncpus pts.length)).2
    ∧ t.numpoints = pts.length
    ∧ t.h = (get_table_dimensions (windowSelect pws bkd ncpus pts.length)).2 := by
  rw [BgmwTable.new] at hnew
  split at hnew
  · injection hnew with h
    subst h
    exact ⟨rfl, rfl, rfl, rfl⟩
  · simp at hnew

/-- The Sync row count of get_table_dimensions, in closed form: one row per
full window plus one boundary/carry row, i.e. `NBITS / w + 1`. -/
theorem get_table_dimensions_sync (w : Nat) (hw : 1 ≤ w) :
    (get_table_dimensions (BgmwWindow.Sync w)).2 = NBITS / w + 1 := by
  show (NBITS + w - 1) / w + is_zero (NBITS % w) = NBITS / w + 1
  rw [show NBITS = 255 from rfl]
  have hdm : w * (255 / w) + 255 % w = 255 := Nat.div_add_mod 255 w
  have hmod : 255 % w < w := Nat.mod_lt 255 (by omega)
  rcases eq_or_ne (255 % w) 0 with hr | hr
  · have hsum : 255 + w - 1 = w * (255 / w) + (w - 1) := by omega
    rw [hsum, Nat.mul_add_div (by omega : 0 < w) (255 / w) (w - 1)]
    rw [Nat.div_eq_of_lt (by omega : w - 1 < w)]
    rw [is_zero, if_pos hr]
  · have hmul : w * (255 / w + 1) = w * (255 / w) + w := by ring
    have hsum : 255 + w - 1 = w * (255 / w + 1) + (255 % w - 1) := by
      omega
    rw [hsum, Nat.mul_add_div (by omega : 0 < w) (255 / w + 1) (255 % w - 1)]
    rw [Nat.div_eq_of_lt (by omega : 255 % w - 1 < w)]
    rw [is_zero, if_neg hr]

end ProofLayer

/-- C1: the claim asserts naive-reference equivalence for every list size
including n = 1, but with a single point/scalar pair multiply_sequential
reads `scalars[1]` (the lookahead in p1_tile_bgmw) out of bounds and panics
(`none` in this model), while the naive reference is the group identity for
the zero scalar.  This theorem evaluates the code at that failing input
(table built by new with pippenger width 8, one identity point, one zero
scalar). -/
theorem C1_single_pair_panics :
    ((BgmwTable.new (fun _ => 8) (fun _ _ => (1, 32, 8)) 1 [(0 : Int)]).bind
      fun t => multiply_sequential t [0]) = none
    ∧ naive_msm [(0 : Int)] [0] = 0 := by
  constructor
  · rfl
  · simp [naive_msm, g1_mul]

/-- C2 (amended): for every table whose window parameter is the Sync
(single-width) variant, multiply_parallel returns exactly
multiply_sequential's result, for every pool size and tile schedule; on
tiled (Parallel-window) tables the sequential path panics instead of
returning a group element, so the two entry points cannot agree there (see
the counterexample). -/
theorem C2_sync_parallel_agree {G : Type} [AddCommGroup G] [DecidableEq G]
    (t : BgmwTable G) (scalars : List Nat) (ncpus : Nat) (asg : Nat → Nat)
    (w : Nat) (hw : t.window = BgmwWindow.Sync w) :
    multiply_parallel ncpus asg t scalars = multiply_sequential t scalars := by
  rw [multiply_parallel, hw]

/-- Witness for C2: a concrete Sync-window table on which the two paths
agree. -/
theorem C2_sync_parallel_agree_witness :
    (⟨BgmwWindow.Sync 8, buildTable 256 [(1 : Int), 1] 32, 2, 32⟩ :
        BgmwTable Int).window = BgmwWindow.Sync 8
    ∧ multiply_parallel 4 (fun _ => 0)
        (⟨BgmwWindow.Sync 8, buildTable 256 [(1 : Int), 1] 32, 2, 32⟩ :
          BgmwTable Int) [3, 5]
      = multiply_sequential
        (⟨BgmwWindow.Sync 8, buildTable 256 [(1 : Int), 1] 32, 2, 32⟩ :
          BgmwTable Int) [3, 5] :=
  ⟨rfl, C2_sync_parallel_agree _ [3, 5] 4 (fun _ => 0) 8 rfl⟩

set_option maxRecDepth 8000 in
/-- Counterexample for C2: a table the Window Selector produces for 33
points on a 4-worker pool carries a Parallel window; multiply_sequential
panics on it (`none`) while multiply_parallel returns the group element, so
the two results are not identical as claimed. -/
theorem C2_counterexample :
    ((BgmwTable.new (fun _ => 8) (fun _ _ => (1, 32, 8)) 4
        (List.replicate 33 (0 : Int))).bind
      fun t => multiply_sequential t (List.replicate 33 0)) = none
    ∧ ((BgmwTable.new (fun _ => 8) (fun _ _ => (1, 32, 8)) 4
        (List.replicate 33 (0 : Int))).bind
      fun t => multiply_parallel 4 (fun _ => 0) t (List.replicate 33 0))
      = some 0 := by
  constructor
  · rfl
  · rfl

/-- C6: calling the sequential path on a table with a tiled window parameter
is rejected — get_sequential_window_size panics rather than computing with a
wrong width — and the public parallel multiply entry point transparently
falls back to the sequential path on Sync-window tables, returning exactly
its result. -/
theorem C6_sequential_rejects_tiled {G : Type} [AddCommGroup G]
    [DecidableEq G] :
    (∀ (t : BgmwTable G) (scalars : List Nat) (nx ny w : Nat),
      t.window = BgmwWindow.Parallel nx ny w →
      multiply_sequential t scalars = none)
    ∧ (∀ (t : BgmwTable G) (scalars : List Nat) (ncpus : Nat)
        (asg : Nat → Nat) (w : Nat), t.window = BgmwWindow.Sync w →
      multiply_parallel ncpus asg t scalars
        = multiply_sequential t scalars) := by
  constructor
  · intro t scalars nx ny w hw
    rw [multiply_sequential, hw]
    rfl
  · intro t scalars ncpus asg w hw
    rw [multiply_parallel, hw]

/-- Witness for C6 at a concrete tiled table and a concrete Sync table. -/
theorem C6_sequential_rejects_tiled_witness :
    (⟨BgmwWindow.Parallel 1 32 8, [], 0, 32⟩ : BgmwTable Int).window
      = BgmwWindow.Parallel 1 32 8
    ∧ multiply_sequential
        (⟨BgmwWindow.Parallel 1 32 8, [], 0, 32⟩ : BgmwTable Int) [7] = none
    ∧ multiply_parallel 2 (fun i => i)
        (⟨BgmwWindow.Sync 8, buildTable 256 [(1 : Int), 1] 32, 2, 32⟩ :
          BgmwTable Int) [2, 9]
      = multiply_sequential
        (⟨BgmwWindow.Sync 8, buildTable 256 [(1 : Int), 1] 32, 2, 32⟩ :
          BgmwTable Int) [2, 9] :=
  ⟨rfl, (C6_sequential_rejects_tiled.1 _ [7] 1 32 8 rfl),
    (C6_sequential_rejects_tiled.2 _ [2, 9] 2 (fun i => i) 8 rfl)⟩

/-- C9: table equality through the PartialEq implementation is constantly
false as soon as either window parameter is the tiled variant — in
particular it is not reflexive on tiled tables — while two Sync-window
tables compare equal exactly when width, points matrix, numpoints and h all
agree. -/
theorem C9_eq_not_reflexive_for_tiled {G : Type} [AddCommGroup G]
    [DecidableEq G] :
    (∀ (a b : BgmwTable G) (nx ny w : Nat),
      a.window = BgmwWindow.Parallel nx ny w → tableEq a b = false)
    ∧ (∀ (a b : BgmwTable G) (nx ny w : Nat),
      b.window = BgmwWindow.Parallel nx ny w → tableEq a b = false)
    ∧ (∀ (a b : BgmwTable G) (wa wb : Nat),
      a.window = BgmwWindow.Sync wa → b.window = BgmwWindow.Sync wb →
      (tableEq a b = true ↔ wa = wb ∧ a.points = b.points
        ∧ a.numpoints = b.numpoints ∧ a.h = b.h)) := by
  refine ⟨?_, ?_, ?_⟩
  · intro a b nx ny w hw
    rw [tableEq, hw, windowEqB_parallel_left]
    simp
  · intro a b nx ny w hw
    rw [tableEq, hw, windowEqB_parallel_right]
    simp
  · intro a b wa wb hwa hwb
    rw [tableEq, hwa, hwb]
    show ((wa == wb) && decide (a.points = b.points)
      && a.numpoints == b.numpoints && a.h == b.h) = true ↔ _
    simp [Bool.and_assoc]

/-- Witness for C9: a concrete tiled table does not even equal itself,
and concrete Sync tables compare by their fields. -/
theorem C9_eq_not_reflexive_for_tiled_witness :
    tableEq (⟨BgmwWindow.Parallel 1 32 8, [], 0, 32⟩ : BgmwTable Int)
        ⟨BgmwWindow.Parallel 1 32 8, [], 0, 32⟩ = false
    ∧ (tableEq (⟨BgmwWindow.Sync 4, [(5 : Int)], 1, 64⟩ : BgmwTable Int)
        ⟨BgmwWindow.Sync 4, [(5 : Int)], 1, 64⟩ = true
      ↔ (4 = 4 ∧ [(5 : Int)] = [(5 : Int)] ∧ 1 = 1 ∧ 64 = 64)) :=
  ⟨C9_eq_not_reflexive_for_tiled.1 _ _ 1 32 8 rfl,
    C9_eq_not_reflexive_for_tiled.2.2 _ _ 4 4 rfl rfl⟩

/-- C4 (amended): for every table returned by new with a Sync window of
positive width `w`, the number of precomputed rows is
`h = floor(NBITS/w) + 1` — equivalently `ceil(NBITS/w)` incremented by one
exactly when the division is exact (not, as claimed, when it is inexact);
for a Parallel window `(nx, ny, w)` the row count is `ny`. -/
theorem C4_row_count {G : Type} [AddCommGroup G] [DecidableEq G]
    (pws : Nat → Nat) (bkd : Nat → Nat → Nat × Nat × Nat) (ncpus : Nat)
    (pts : List G) (t : BgmwTable G)
    (hnew : BgmwTable.new pws bkd ncpus pts = some t) :
    (∀ w, t.window = BgmwWindow.Sync w → 1 ≤ w → t.h = NBITS / w + 1)
    ∧ (∀ nx ny w, t.window = BgmwWindow.Parallel nx ny w → t.h = ny) := by
  obtain ⟨hwin, _, _, hh⟩ := new_fields pws bkd ncpus pts t hnew
  constructor
  · intro w hw hw1
    rw [hh, ← hwin, hw]
    exact get_table_dimensions_sync w hw1
  · intro nx ny w hw
    rw [hh, ← hwin, hw]
    rfl

/-- Witness for C4: a table built over 64 points with pippenger width 4. -/
theorem C4_row_count_witness :
    (1 : Nat) ≤ 4
    ∧ (⟨BgmwWindow.Sync 4, buildTable 16 (List.replicate 64 (0 : Int)) 64,
        64, 64⟩ : BgmwTable Int).h = NBITS / 4 + 1 :=
  ⟨by decide, (C4_row_count (fun _ => 4) (fun _ _ => (1, 64, 4)) 1
      (List.replicate 64 (0 : Int))
      ⟨BgmwWindow.Sync 4, buildTable 16 (List.replicate 64 (0 : Int)) 64,
        64, 64⟩ rfl).1 4 rfl (by decide)⟩

/-- Counterexample for C4: with width 4 the division 255/4 is not exact, so
the claim calls for `h = ceil(255/4) + 1 = 65`, but the table built by new
has `h = 64`. -/
theorem C4_counterexample :
    ((BgmwTable.new (fun _ => 4) (fun _ _ => (1, 64, 4)) 1
        (List.replicate 64 (0 : Int))).map fun t => t.h) = some 64
    ∧ (NBITS + 4 - 1) / 4 + 1 = 65 ∧ ¬ NBITS % 4 = 0 := by
  refine ⟨rfl, by decide, by decide⟩

/-- C5: reading a window header accepts tag 1 as the Sync variant with one
u64 payload, tag 3 as the Parallel variant with three u64 payloads, and
returns a decode error (`none`) for every other tag value. -/
theorem C5_window_tag :
    (∀ (w : Nat) (rest : List Nat), w < 256 ^ 8 →
      read_window (leBytes 8 1 ++ (leBytes 8 w ++ rest))
        = some (BgmwWindow.Sync w, rest))
    ∧ (∀ (nx ny w : Nat) (rest : List Nat), nx < 256 ^ 8 → ny < 256 ^ 8 →
        w < 256 ^ 8 →
      read_window
          (leBytes 8 3 ++ (leBytes 8 nx ++ (leBytes 8 ny ++ (leBytes 8 w ++ rest))))
        = some (BgmwWindow.Parallel nx ny w, rest))
    ∧ (∀ (tg : Nat) (rest : List Nat), tg < 256 ^ 8 → ¬ tg = 1 → ¬ tg = 3 →
      read_window (leBytes 8 tg ++ rest) = none) := by
  refine ⟨?_, ?_, ?_⟩
  · intro w rest hw
    rw [read_window, read_usize_append 1 _ (by norm_num)]
    simp only [Option.bind_eq_bind, Option.some_bind]
    rw [read_usize_append w _ hw]
    rfl
  · intro nx ny w rest hnx hny hw
    rw [read_window, read_usize_append 3 _ (by norm_num)]
    simp only [Option.bind_eq_bind, Option.some_bind]
    rw [read_usize_append nx _ hnx]
    simp only [Option.bind_eq_bind, Option.some_bind]
    rw [read_usize_append ny _ hny]
    simp only [Option.bind_eq_bind, Option.some_bind]
    rw [read_usize_append w _ hw]
    rfl
  · intro tg rest htg h1 h3
    rw [read_window, read_usize_append tg _ htg]
    simp only [Option.bind_eq_bind, Option.some_bind]

/-- Witness for C5 at concrete tag values 1, 3 and 7. -/
theorem C5_window_tag_witness :
    read_window (leBytes 8 1 ++ (leBytes 8 11 ++ [9]))
        = some (BgmwWindow.Sync 11, [9])
    ∧ read_window
        (leBytes 8 3 ++ (leBytes 8 2 ++ (leBytes 8 16 ++ (leBytes 8 5 ++ []))))
        = some (BgmwWindow.Parallel 2 16 5, [])
    ∧ read_window (leBytes 8 7 ++ [1, 2, 3]) = none :=
  ⟨C5_window_tag.1 11 [9] (by norm_num),
    C5_window_tag.2.1 2 16 5 [] (by norm_num) (by norm_num) (by norm_num),
    C5_window_tag.2.2 7 [1, 2, 3] (by norm_num) (by decide) (by decide)⟩

/-- C7: every table returned by new has a points matrix of length exactly
`numpoints * h`, and the row-major entry at `j * numpoints + i` (for
`j < h`, `i < numpoints`) is the affine form of `point_i` multiplied by
`q^j` with `q = 2^width`. -/
theorem C7_table_entries {G : Type} [AddCommGroup G] [DecidableEq G]
    (pws : Nat → Nat) (bkd : Nat → Nat → Nat × Nat × Nat) (ncpus : Nat)
    (pts : List G) (t : BgmwTable G)
    (hnew : BgmwTable.new pws bkd ncpus pts = some t) (w : Nat)
    (hw : (get_table_dimensions t.window).1 = w) :
    t.points.length = t.numpoints * t.h
    ∧ ∀ j i, j < t.h → i < t.numpoints →
        t.points.get? (j * t.numpoints + i)
          = (pts.get? i).map fun p => ((2 ^ w) ^ j) • p := by
  obtain ⟨hwin, hpts, hnp, hh⟩ := new_fields pws bkd ncpus pts t hnew
  constructor
  · rw [hpts, hnp, hh, buildTable_length]
  · intro j i hj hi
    rw [hwin] at hw
    rw [hh] at hj
    rw [hnp] at hi
    rw [hpts, hnp]
    rw [buildTable_get _ _ _ j i hj hi]
    rw [hw]
    rcases pts.get? i with _ | p
    · rfl
    · simp only [Option.map_some, g1_mul_iterate]

/-- Witness for C7 at a concrete two-point table with width 8. -/
theorem C7_table_entries_witness :
    (get_table_dimensions (⟨BgmwWindow.Sync 8,
        buildTable 256 [(1 : Int), 2] 32, 2, 32⟩ : BgmwTable Int).window).1 = 8
    ∧ (⟨BgmwWindow.Sync 8, buildTable 256 [(1 : Int), 2] 32, 2, 32⟩ :
        BgmwTable Int).points.length = 2 * 32
    ∧ (⟨BgmwWindow.Sync 8, buildTable 256 [(1 : Int), 2] 32, 2, 32⟩ :
        BgmwTable Int).points.get? (1 * 2 + 1)
      = ([(1 : Int), 2].get? 1).map fun p => ((2 ^ 8) ^ 1) • p :=
  ⟨rfl,
    (C7_table_entries (fun _ => 8) (fun _ _ => (1, 32, 8)) 1 [(1 : Int), 2]
      ⟨BgmwWindow.Sync 8, buildTable 256 [(1 : Int), 2] 32, 2, 32⟩
      rfl 8 rfl).1,
    (C7_table_entries (fun _ => 8) (fun _ _ => (1, 32, 8)) 1 [(1 : Int), 2]
      ⟨BgmwWindow.Sync 8, buildTable 256 [(1 : Int), 2] 32, 2, 32⟩
      rfl 8 rfl).2 1 1 (by decide) (by decide)⟩

/-- C3 (amended): writing and re-reading a table recovers a structurally
identical table (`read(write(t)) = some t`) for both tag variants and both
point encodings; the `==` comparison used by the claim confirms the
round-trip for Sync-tag tables but returns false for every tiled-tag table
— even against itself — because window equality is never true on the
Parallel variant, so `read(write(table)) == table` fails for the tiled
variant (see the counterexample). -/
theorem C3_roundtrip_fields {G : Type} [DecidableEq G]
    (codec : PointCodec G) (compressed : Bool) (t : BgmwTable G)
    (hnp : t.numpoints < 256 ^ 8) (hht : t.h < 256 ^ 8)
    (hwf : ∀ nx ny w, (t.window = BgmwWindow.Sync w → w < 256 ^ 8) ∧
      (t.window = BgmwWindow.Parallel nx ny w →
        nx < 256 ^ 8 ∧ ny < 256 ^ 8 ∧ w < 256 ^ 8))
    (hcount : t.points.length = t.numpoints * t.h)
    (hpts : ∀ p ∈ t.points,
      ((codec.to_bytes p).length = 48
          ∧ codec.from_bytes (codec.to_bytes p) = some p)
        ∧ ((codec.serializeP p).length = 96
          ∧ codec.deserializeP (codec.serializeP p) = some p)) :
    read_from_reader codec compressed (write_to_writer codec compressed t)
        = some t
    ∧ (∀ w, t.window = BgmwWindow.Sync w → tableEq t t = true)
    ∧ (∀ nx ny w, t.window = BgmwWindow.Parallel nx ny w →
        tableEq t t = false) := by
  refine ⟨?_, ?_, ?_⟩
  · have hassoc : write_to_writer codec compressed t
        = write_window t.window ++ (leBytes 8 t.numpoints ++ (leBytes 8 t.h ++
            ((t.points.flatMap fun p => if compressed then codec.to_bytes p
              else codec.serializeP p) ++ []))) := by
      rw [write_to_writer]
      simp [List.append_assoc]
    rw [hassoc, read_from_reader, read_window_write t.window _ hwf]
    simp only [Option.bind_eq_bind, Option.some_bind]
    rw [read_usize_append _ _ hnp]
    simp only [Option.bind_eq_bind, Option.some_bind]
    rw [read_usize_append _ _ hht]
    simp only [Option.bind_eq_bind, Option.some_bind]
    cases compressed with
    | true =>
      have hstream : (t.points.flatMap fun p =>
          if true = true then codec.to_bytes p else codec.serializeP p)
          = t.points.flatMap fun p => codec.to_bytes p := by simp
      rw [read_points, if_pos rfl, hstream]
      rw [show t.numpoints * t.h = t.points.length from hcount.symm]
      rw [readRecords_append codec.from_bytes
        (fun p => codec.to_bytes p) 48 t.points []
        (fun p hp => (hpts p hp).1)]
      rfl
    | false =>
      have hstream : (t.points.flatMap fun p =>
          if false = true then codec.to_bytes p else codec.serializeP p)
          = t.points.flatMap fun p => codec.serializeP p := by simp
      rw [read_points, if_neg (by simp), hstream]
      rw [show t.numpoints * t.h = t.points.length from hcount.symm]
      rw [readRecords_append codec.deserializeP
        (fun p => codec.serializeP p) 96 t.points []
        (fun p hp => (hpts p hp).2)]
      rfl
  · intro w hw
    rw [tableEq, hw]
    simp [windowEqB]
  · intro nx ny w hw
    rw [tableEq, hw, windowEqB_parallel_left]
    simp

set_option maxRecDepth 4000 in
/-- Witness for C3 at a concrete one-point Sync table over the concrete
integer codec, compressed encoding. -/
theorem C3_roundtrip_fields_witness :
    ((⟨BgmwWindow.Sync 9, [(3 : Int)], 1, 1⟩ : BgmwTable Int).numpoints
        < 256 ^ 8
      ∧ [(3 : Int)].length = 1 * 1)
    ∧ read_from_reader intCodec true (write_to_writer intCodec true
        (⟨BgmwWindow.Sync 9, [(3 : Int)], 1, 1⟩ : BgmwTable Int))
      = some ⟨BgmwWindow.Sync 9, [(3 : Int)], 1, 1⟩ :=
  ⟨⟨by norm_num, by decide⟩,
    (C3_roundtrip_fields intCodec true
      ⟨BgmwWindow.Sync 9, [(3 : Int)], 1, 1⟩ (by norm_num) (by norm_num)
      (fun nx ny w => ⟨fun h => by cases h; norm_num, fun h => by cases h⟩)
      (by decide) (by decide)).1⟩

set_option maxRecDepth 4000 in
/-- Counterexample for C3: a tiled-window table (0-point input, one of the
claim's sizes) round-trips to a structurally identical table, yet the `==`
of the claim returns false — the tiled window comparison is never true — so
`read(write(table)) == table` does not hold for the tiled tag variant. -/
theorem C3_counterexample :
    read_from_reader intCodec true (write_to_writer intCodec true
        (⟨BgmwWindow.Parallel 1 32 8, [], 0, 32⟩ : BgmwTable Int))
      = some ⟨BgmwWindow.Parallel 1 32 8, [], 0, 32⟩
    ∧ tableEq (⟨BgmwWindow.Parallel 1 32 8, [], 0, 32⟩ : BgmwTable Int)
        ⟨BgmwWindow.Parallel 1 32 8, [], 0, 32⟩ = false := by
  constructor
  · rfl
  · rfl

/-- C10: read_from_reader succeeds on any stream made of a valid window
header, two u64 header fields and `numpoints * h` well-formed fixed-size
point records (with arbitrary trailing bytes ignored), and copies the
header fields into the returned table verbatim, with no consistency check
between them — the `numpoints`/`h`/window quantifiers below are completely
independent.  Concretely: a stream whose `h` (5) disagrees with the value
construction would derive from its stored Sync width 8 (32) is accepted
(second conjunct); a point record that fails validation is a decode error
(third conjunct); a truncated points region is a decode error (fourth
conjunct). -/
theorem C10_read_verbatim :
    (∀ (G : Type) (codec : PointCodec G) (wd : BgmwWindow) (np hh : Nat)
        (pts : List G) (rest : List Nat),
      np < 256 ^ 8 → hh < 256 ^ 8 → pts.length = np * hh →
      (∀ nx ny w, (wd = BgmwWindow.Sync w → w < 256 ^ 8) ∧
        (wd = BgmwWindow.Parallel nx ny w →
          nx < 256 ^ 8 ∧ ny < 256 ^ 8 ∧ w < 256 ^ 8)) →
      (∀ p ∈ pts, (codec.to_bytes p).length = 48
        ∧ codec.from_bytes (codec.to_bytes p) = some p) →
      read_from_reader codec true
          (write_window wd ++ (leBytes 8 np ++ (leBytes 8 hh ++
            ((pts.flatMap fun p => codec.to_bytes p) ++ rest))))
        = some ⟨wd, pts, np, hh⟩)
    ∧ read_from_reader intCodec true
        (write_window (BgmwWindow.Sync 8) ++ (leBytes 8 0 ++ (leBytes 8 5 ++ [])))
        = some ⟨BgmwWindow.Sync 8, [], 0, 5⟩
    ∧ read_from_reader intCodec true
        (write_window (BgmwWindow.Sync 8) ++ (leBytes 8 1 ++ (leBytes 8 1 ++
          leBytes 48 (2 ^ 382)))) = none
    ∧ read_from_reader intCodec true
        (write_window (BgmwWindow.Sync 8) ++ (leBytes 8 1 ++ (leBytes 8 1 ++
          leBytes 20 0))) = none := by
  refine ⟨?_, ?_, ?_, ?_⟩
  · intro G codec wd np hh pts rest hnp hhh hlen hwf hrec
    rw [read_from_reader, read_window_write wd _ hwf]
    simp only [Option.bind_eq_bind, Option.some_bind]
    rw [read_usize_append _ _ hnp]
    simp only [Option.bind_eq_bind, Option.some_bind]
    rw [read_usize_append _ _ hhh]
    simp only [Option.bind_eq_bind, Option.some_bind]
    rw [read_points, if_pos rfl]
    rw [show np * hh = pts.length from hlen.symm]
    rw [readRecords_append codec.from_bytes (fun p => codec.to_bytes p) 48
      pts rest hrec]
    rfl
  · rfl
  · rfl
  · rfl

set_option maxRecDepth 4000 in
/-- Witness for C10's universal conjunct at a concrete stream whose header
fields are copied verbatim. -/
theorem C10_read_verbatim_witness :
    ((2 : Nat) < 256 ^ 8 ∧ [(4 : Int), 7].length = 2 * 1)
    ∧ read_from_reader intCodec true
        (write_window (BgmwWindow.Sync 9) ++ (leBytes 8 2 ++ (leBytes 8 1 ++
          (([(4 : Int), 7].flatMap fun p => intCodec.to_bytes p) ++ [0]))))
      = some ⟨BgmwWindow.Sync 9, [(4 : Int), 7], 2, 1⟩ :=
  ⟨⟨by norm_num, by decide⟩,
    C10_read_verbatim.1 Int intCodec (BgmwWindow.Sync 9) 2 1 [(4 : Int), 7]
      [0] (by norm_num) (by norm_num) (by decide)
      (fun nx ny w => ⟨fun h => by cases h; norm_num, fun h => by cases h⟩)
      (by decide)⟩

/-- C8 (amended): provided the table carries at least two point/scalar
pairs — with exactly one pair the implementation reads `scalars[1]` out of
bounds and panics, see the counterexample — a Sync window of positive width
at most NBITS, consistent row count and matrix length, and no more scalars
than points, multiply_sequential (one shared bucket array, one final
integration) returns exactly the reference evaluation that processes the
`h` window levels independently with a fresh bucket array and one
integration per level. -/
theorem C8_sequential_refines_reference {G : Type} [AddCommGroup G]
    [DecidableEq G] (t : BgmwTable G) (S : List Nat) (w : Nat)
    (hwin : t.window = BgmwWindow.Sync w) (hw1 : 1 ≤ w) (hw255 : w ≤ NBITS)
    (hh : t.h = NBITS / w + 1) (hlen : t.points.length = t.numpoints * t.h)
    (h2 : 2 ≤ S.length) (hSnp : S.length ≤ t.numpoints) :
    multiply_sequential t S = referenceSequential t S :=
  multiply_sequential_eq_reference t S w hwin hw1 hw255 hh hlen h2 hSnp

/-- Witness for C8 at a concrete two-point width-8 table. -/
theorem C8_sequential_refines_reference_witness :
    ((32 : Nat) = NBITS / 8 + 1
      ∧ (buildTable 256 [(1 : Int), 1] 32).length = 2 * 32)
    ∧ multiply_sequential
        (⟨BgmwWindow.Sync 8, buildTable 256 [(1 : Int), 1] 32, 2, 32⟩ :
          BgmwTable Int) [3, 5]
      = referenceSequential
        (⟨BgmwWindow.Sync 8, buildTable 256 [(1 : Int), 1] 32, 2, 32⟩ :
          BgmwTable Int) [3, 5] :=
  ⟨⟨by decide, by decide⟩,
    C8_sequential_refines_reference
      ⟨BgmwWindow.Sync 8, buildTable 256 [(1 : Int), 1] 32, 2, 32⟩ [3, 5] 8
      rfl (by decide) (by decide) (by decide) (by decide) (by decide)
      (by decide)⟩

set_option maxRecDepth 40000 in
/-- Counterexample for C8: with a single point/scalar pair the
implementation panics (`none`) on the `scalars[1]` lookahead, while the
reference evaluation is defined and returns `3·P`. -/
theorem C8_counterexample :
    ((BgmwTable.new (fun _ => 8) (fun _ _ => (1, 32, 8)) 1 [(1 : Int)]).bind
      fun t => multiply_sequential t [3]) = none
    ∧ ((BgmwTable.new (fun _ => 8) (fun _ _ => (1, 32, 8)) 1 [(1 : Int)]).bind
      fun t => referenceSequential t [3]) = some 3 := by
  constructor
  · rfl
  · rfl
